import Mathlib

/-!
# SimpleVector (simple_vector.h): a verification development

A shallow embedding of the class template `SimpleVector<Type>` and of the
free `operator==` from `simple-vector/simple_vector.h`.

Conventions of the embedding.

* A container state is the triple of its three data members
  `vector_`, `size_`, `capacity_`; a member function becomes a function from the
  state (and the arguments) to the state after the call.
* An iterator is the offset of the pointer from `begin()`: `begin()` is `0`,
  `end()` is `size_`, `begin() + k` is `k`.
* The unchecked `vector_[i]` of the source has no defined meaning outside the
  allocation.  Every read and write of a slot is therefore an `Option`: `none`
  says that the call touched a slot that the buffer does not have.  A result
  `some _` says that the call ran to its end inside the allocation.
* `size_t` and `int` values are natural numbers: the development reasons about
  containers whose sizes fit the machine words, and about allocations that
  succeed.
* The element type supplies `Type()` (through `Inhabited`), the state in which a
  move leaves its source (through `Movable`) and `==` (through `DecidableEq`).
-/

/-- What the element type does to the source of a move: `moved_from x` is the
value that an object holding `x` is left with after `std::move` took it. -/
class Movable (α : Type) where
  moved_from : α → α

instance : Movable Nat := ⟨id⟩

/-- An element type that owns a resource, in the way of `std::unique_ptr<int>`:
the pointee, or nothing.  A move takes the pointee and leaves the source
holding nothing; `Type()` holds nothing. -/
structure UniquePtr where
  pointee : Option Nat
deriving DecidableEq, Repr

instance : Movable UniquePtr := ⟨fun _ => ⟨none⟩⟩

instance : Inhabited UniquePtr := ⟨⟨none⟩⟩

/-- Modelled from the spec: `array_ptr.h` (the owned buffer, section 4.1) is not
among the sources.  A buffer is the sequence of the slots it owns; it does not
know its length to the caller, who keeps it in `capacity_`. -/
structure ArrayPtr (α : Type) where
  slots : List α
deriving DecidableEq, Repr

namespace ArrayPtr

variable {α : Type}

/-- Modelled from the spec: `allocate(n)` of section 4.1, the constructor
`ArrayPtr<Type>(n)`: a buffer owning exactly `n` default-constructed slots. -/
def allocate [Inhabited α] (n : Nat) : ArrayPtr α :=
  ⟨List.replicate n default⟩

/-- Modelled from the spec: a default-constructed `ArrayPtr`, the absent buffer
that goes with capacity `0` (section 3). -/
def null : ArrayPtr α :=
  ⟨[]⟩

/-- Modelled from the spec: unchecked indexed read `a[i]` (section 4.1); `none`
when slot `i` is not in the allocation. -/
def get (a : ArrayPtr α) (i : Nat) : Option α :=
  a.slots[i]?

/-- Modelled from the spec: unchecked indexed write `a[i] = x` (section 4.1);
`none` when slot `i` is not in the allocation. -/
def set (a : ArrayPtr α) (i : Nat) (x : α) : Option (ArrayPtr α) :=
  if i < a.slots.length then some ⟨a.slots.set i x⟩ else none

/-- Modelled from the spec: move assignment of the buffer (`array_ptr.h` is not
among the sources): ownership goes to the target and the source is left
absent.  The result is the pair (target, source) after the assignment. -/
def move_assign (_target source : ArrayPtr α) : ArrayPtr α × ArrayPtr α :=
  (source, ArrayPtr.null)

end ArrayPtr

section Algorithms

variable {α : Type}

/-- Loop of `std::fill`: `n` times `*first++ = value`. -/
def fill_loop (value : α) : Nat → ArrayPtr α → Nat → Option (ArrayPtr α)
  | 0, a, _ => some a
  | n + 1, a, first =>
    match a.set first value with
    | none => none
    | some a1 => fill_loop value n a1 (first + 1)

/-- The call `std::fill(p + first, p + last, value)` on the buffer `a`. -/
def std_fill (a : ArrayPtr α) (first last : Nat) (value : α) : Option (ArrayPtr α) :=
  if first ≤ last then fill_loop value (last - first) a first else none

/-- Loop of `std::copy` from one buffer into another one: `n` times
`*d_first++ = *first++`.  `after` is what the assignment leaves in the source
slot: the identity for plain iterators, `Movable.moved_from` for
`std::make_move_iterator`.  Both buffers are returned. -/
def copy_loop (after : α → α) :
    Nat → ArrayPtr α → Nat → ArrayPtr α → Nat → Option (ArrayPtr α × ArrayPtr α)
  | 0, src, _, dst, _ => some (src, dst)
  | n + 1, src, first, dst, d_first =>
    match src.get first with
    | none => none
    | some x =>
      match dst.set d_first x with
      | none => none
      | some dst1 =>
        match src.set first (after x) with
        | none => none
        | some src1 => copy_loop after n src1 (first + 1) dst1 (d_first + 1)

/-- The call `std::copy(s + first, s + last, d + d_first)` with source buffer
`src` and a different destination buffer `dst`. -/
def std_copy (after : α → α) (src : ArrayPtr α) (first last : Nat)
    (dst : ArrayPtr α) (d_first : Nat) : Option (ArrayPtr α × ArrayPtr α) :=
  if first ≤ last then copy_loop after (last - first) src first dst d_first else none

/-- Loop of `std::copy_backward` inside one buffer: `n` times
`*(--d_last) = *(--last)`.  A decrement below the start of the buffer is `none`. -/
def copy_backward_loop (after : α → α) : Nat → ArrayPtr α → Nat → Nat → Option (ArrayPtr α)
  | 0, a, _, _ => some a
  | _ + 1, _, 0, _ => none
  | _ + 1, _, _ + 1, 0 => none
  | n + 1, a, last + 1, d_last + 1 =>
    match a.get last with
    | none => none
    | some x =>
      match a.set d_last x with
      | none => none
      | some a1 =>
        match a1.set last (after x) with
        | none => none
        | some a2 => copy_backward_loop after n a2 last d_last

/-- The call `std::copy_backward(p + first, p + last, p + d_last)` inside one
buffer. -/
def std_copy_backward (after : α → α) (a : ArrayPtr α) (first last d_last : Nat) :
    Option (ArrayPtr α) :=
  if first ≤ last then copy_backward_loop after (last - first) a last d_last else none

end Algorithms

/-- The data members of `SimpleVector<Type>`. -/
structure SimpleVector (α : Type) where
  vector_ : ArrayPtr α
  size_ : Nat
  capacity_ : Nat
deriving DecidableEq, Repr

namespace SimpleVector

variable {α : Type}

/-- The elements in use, slots `[0, size_)`, as the range `begin() .. end()`
visits them. -/
def toList (v : SimpleVector α) : List α :=
  v.vector_.slots.take v.size_

/-- The buffer holds exactly `capacity_` slots. -/
def Allocated (v : SimpleVector α) : Prop :=
  v.vector_.slots.length = v.capacity_

instance (v : SimpleVector α) : Decidable v.Allocated :=
  inferInstanceAs (Decidable (v.vector_.slots.length = v.capacity_))

/-- The state of a live container: `size_ ≤ capacity_`, and the buffer is the
allocation of `capacity_` slots. -/
def WellFormed (v : SimpleVector α) : Prop :=
  v.size_ ≤ v.capacity_ ∧ v.Allocated

def GetSize (v : SimpleVector α) : Nat :=
  v.size_

def GetCapacity (v : SimpleVector α) : Nat :=
  v.capacity_

def IsEmpty (v : SimpleVector α) : Bool :=
  v.size_ == 0

/-- The function `Resize(new_size)`. -/
def Resize [Inhabited α] [Movable α] (v : SimpleVector α) (new_size : Nat) :
    Option (SimpleVector α) :=
  if new_size ≤ v.size_ then
    some { v with size_ := new_size }
  else if new_size ≤ v.capacity_ then
    match std_fill v.vector_ v.size_ new_size default with
    | none => none
    | some buf => some { v with vector_ := buf, size_ := new_size }
  else if new_size > v.capacity_ then
    let new_capacity := if v.capacity_ * 2 > new_size then v.capacity_ * 2 else new_size
    let temp : ArrayPtr α := ArrayPtr.allocate new_capacity
    match std_copy Movable.moved_from v.vector_ 0 v.size_ temp 0 with
    | none => none
    | some (_, temp1) =>
      some { vector_ := temp1, size_ := new_size, capacity_ := new_capacity }
  else some v

/-- The function `PushBack(const Type& item)`. -/
def PushBack [Inhabited α] [Movable α] (v : SimpleVector α) (item : α) :
    Option (SimpleVector α) :=
  let temp := v.size_
  match (if v.size_ = v.capacity_ then v.Resize (v.size_ + 1)
         else some { v with size_ := v.size_ + 1 }) with
  | none => none
  | some v1 =>
    match v1.vector_.set temp item with
    | none => none
    | some buf => some { v1 with vector_ := buf }

/-- The function `PopBack()`. -/
def PopBack (v : SimpleVector α) : SimpleVector α :=
  { v with size_ := v.size_ - (if v.size_ > 0 then 1 else 0) }

/-- The function `Reserve(new_capacity)`. -/
def Reserve [Inhabited α] (v : SimpleVector α) (new_capacity : Nat) : Option (SimpleVector α) :=
  if new_capacity > v.capacity_ then
    let temp : ArrayPtr α := ArrayPtr.allocate new_capacity
    match std_copy id v.vector_ 0 v.size_ temp 0 with
    | none => none
    | some (_, temp1) => some { v with vector_ := temp1, capacity_ := new_capacity }
  else some v

/-- What a call can throw. -/
inductive Exception where
  | out_of_range
deriving DecidableEq, Repr

/-- The function `operator[](index)`: the state after the call and the slot the
returned reference denotes (`none` when it is outside the allocation). -/
def operator_index (v : SimpleVector α) (index : Nat) : SimpleVector α × Option α :=
  (v, v.vector_.get index)

/-- The function `At(index)`: the state after the call and either the thrown
exception or the slot the returned reference denotes. -/
def At (v : SimpleVector α) (index : Nat) : SimpleVector α × Except Exception (Option α) :=
  if index ≥ v.size_ then (v, Except.error Exception.out_of_range)
  else (v, Except.ok (v.vector_.get index))

/-- The default constructor `SimpleVector()`: the member initialisers. -/
def ctor_default : SimpleVector α :=
  { vector_ := ArrayPtr.null, size_ := 0, capacity_ := 0 }

/-- Loop of the initializer-list constructor: `temp[counter] = element; ++counter`
for each element of the list. -/
def init_loop : List α → ArrayPtr α → Nat → Option (ArrayPtr α)
  | [], temp, _ => some temp
  | element :: rest, temp, counter =>
    match temp.set counter element with
    | none => none
    | some temp1 => init_loop rest temp1 (counter + 1)

/-- The constructor `SimpleVector(std::initializer_list<Type> init)`. -/
def ctor_init [Inhabited α] (init : List α) : Option (SimpleVector α) :=
  let temp : ArrayPtr α := ArrayPtr.allocate init.length
  match init_loop init temp 0 with
  | none => none
  | some temp1 => some { vector_ := temp1, size_ := init.length, capacity_ := init.length }

/-- The move constructor `SimpleVector(SimpleVector&& other)`; the result is the
pair (`*this`, `other`) after the call. -/
def ctor_move (other : SimpleVector α) : SimpleVector α × SimpleVector α :=
  let bufs := ArrayPtr.move_assign (ctor_default : SimpleVector α).vector_ other.vector_
  ({ vector_ := bufs.1, size_ := other.size_, capacity_ := other.capacity_ },
   { vector_ := bufs.2, size_ := 0, capacity_ := 0 })

/-- The move assignment `operator=(SimpleVector&& rhs)`.  The argument is `none`
when `rhs` is `*this` itself and `some r` when it is another object holding
`r`; the result is `*this` and, in the second case, `rhs` after the call. -/
def assign_move (v : SimpleVector α) (rhs : Option (SimpleVector α)) :
    SimpleVector α × Option (SimpleVector α) :=
  match rhs with
  | none => (v, none)
  | some r =>
    let bufs := ArrayPtr.move_assign v.vector_ r.vector_
    ({ vector_ := bufs.1, size_ := r.size_, capacity_ := r.capacity_ },
     some { vector_ := bufs.2, size_ := 0, capacity_ := 0 })

/-- Loop of `std::equal`: `false` at the first pair of slots that differ. -/
def equal_loop [DecidableEq α] : Nat → ArrayPtr α → Nat → ArrayPtr α → Nat → Option Bool
  | 0, _, _, _, _ => some true
  | n + 1, a, first1, b, first2 =>
    match a.get first1, b.get first2 with
    | some x, some y => if x = y then equal_loop n a (first1 + 1) b (first2 + 1) else some false
    | _, _ => none

/-- The call `std::equal(p + first1, p + last1, q + first2, q + last2)`: ranges
of different lengths are unequal. -/
def std_equal [DecidableEq α] (a : ArrayPtr α) (first1 last1 : Nat) (b : ArrayPtr α)
    (first2 last2 : Nat) : Option Bool :=
  if first1 ≤ last1 ∧ first2 ≤ last2 then
    if last1 - first1 ≠ last2 - first2 then some false
    else equal_loop (last1 - first1) a first1 b first2
  else none

/-- The free function `operator==(lhs, rhs)`. -/
def operator_eq [DecidableEq α] (lhs rhs : SimpleVector α) : Option Bool :=
  if lhs.GetSize ≠ rhs.GetSize then some false
  else std_equal lhs.vector_ 0 lhs.size_ rhs.vector_ 0 rhs.size_

/-- The state after `PushBack` of each value of a list in turn. -/
def push_all [Inhabited α] [Movable α] : List α → SimpleVector α → Option (SimpleVector α)
  | [], v => some v
  | item :: rest, v =>
    match v.PushBack item with
    | none => none
    | some v1 => push_all rest v1

/-- The function `PushBack(Type&& item)`; the result is the state after the
call and what the caller's object `item` holds after `std::move(item)` was
assigned to the slot. -/
def PushBack_move [Inhabited α] [Movable α] (v : SimpleVector α) (item : α) :
    Option (SimpleVector α × α) :=
  let temp := v.size_
  match (if v.size_ = v.capacity_ then v.Resize (v.size_ + 1)
         else some { v with size_ := v.size_ + 1 }) with
  | none => none
  | some v1 =>
    match v1.vector_.set temp item with
    | none => none
    | some buf => some ({ v1 with vector_ := buf }, Movable.moved_from item)

/-- The function `Insert(ConstIterator pos, Type&& value)`; the result is the
state after the call, the returned iterator and what the caller's object
`value` holds after the call. -/
def Insert_move [Inhabited α] [Movable α] (v : SimpleVector α) (pos : Nat) (value : α) :
    Option (SimpleVector α × Nat × α) :=
  let index := pos
  match (if v.size_ = 0 then v.PushBack_move value
         else if v.size_ = v.capacity_ then
           match v.Resize (v.size_ + 1) with
           | none => none
           | some v1 => some (v1, value)
         else if v.size_ < v.capacity_ then some ({ v with size_ := v.size_ + 1 }, value)
         else some (v, value)) with
  | none => none
  | some (v1, value1) =>
    match std_copy_backward Movable.moved_from v1.vector_ index (v1.size_ - 1) v1.size_ with
    | none => none
    | some buf =>
      match buf.set index value1 with
      | none => none
      | some buf1 => some ({ v1 with vector_ := buf1 }, index, Movable.moved_from value1)

/-- The number of elements that `Resize(new_size)` transfers into a new buffer:
the length `end() - begin()` of the range given to `std::copy` in the
reallocating branch; the other branches transfer nothing. -/
def Resize_transferred (v : SimpleVector α) (new_size : Nat) : Nat :=
  if new_size ≤ v.size_ then 0
  else if new_size ≤ v.capacity_ then 0
  else if new_size > v.capacity_ then v.size_
  else 0

/-- The number of elements that `PushBack(item)` transfers into a new buffer:
those of its call of `Resize`, when it makes one. -/
def PushBack_transferred (v : SimpleVector α) : Nat :=
  if v.size_ = v.capacity_ then v.Resize_transferred (v.size_ + 1) else 0

/-- The number of elements transferred into new buffers, in total, by
`PushBack` of each value of a list in turn. -/
def push_all_transferred [Inhabited α] [Movable α] : List α → SimpleVector α → Option Nat
  | [], _ => some 0
  | item :: rest, v =>
    match v.PushBack item with
    | none => none
    | some v1 =>
      match push_all_transferred rest v1 with
      | none => none
      | some t => some (v.PushBack_transferred + t)

end SimpleVector

/-! ## Slots of a buffer -/

section BufferLemmas

variable {α : Type}

theorem ArrayPtr.set_eq_some (a : ArrayPtr α) (i : Nat) (x : α) (h : i < a.slots.length) :
    a.set i x = some ⟨a.slots.set i x⟩ := by
  simp [ArrayPtr.set, h]

theorem ArrayPtr.get_eq_some (a : ArrayPtr α) (i : Nat) (h : i < a.slots.length) :
    a.get i = some (a.slots[i]) := by
  simp [ArrayPtr.get, h]

theorem fill_loop_spec (x : α) : ∀ (n : Nat) (a : ArrayPtr α) (first : Nat),
    first + n ≤ a.slots.length →
    ∃ a', fill_loop x n a first = some a' ∧ a'.slots.length = a.slots.length ∧
      ∀ i, a'.slots[i]? = if first ≤ i ∧ i < first + n then some x else a.slots[i]? := by
  intro n
  induction n with
  | zero =>
    intro a first _
    refine ⟨a, rfl, rfl, ?_⟩
    intro i
    rw [if_neg (by omega)]
  | succ n ih =>
    intro a first h
    have hlt : first < a.slots.length := by omega
    obtain ⟨a', h1, h2, h3⟩ := ih ⟨a.slots.set first x⟩ (first + 1)
      (by simp only [List.length_set]; omega)
    refine ⟨a', ?_, ?_, ?_⟩
    · simp only [fill_loop, ArrayPtr.set_eq_some a first x hlt]
      exact h1
    · simpa using h2
    · intro i
      rw [h3 i]
      simp only [List.getElem?_set]
      by_cases hi : first = i
      · subst hi
        simp [hlt]
      · by_cases h4 : first + 1 ≤ i ∧ i < first + 1 + n
        · have : first ≤ i ∧ i < first + (n + 1) := by omega
          simp [h4, this]
        · have : ¬ (first ≤ i ∧ i < first + (n + 1)) := by omega
          simp [h4, this, hi]

theorem std_fill_spec (a : ArrayPtr α) (first last : Nat) (x : α)
    (h1 : first ≤ last) (h2 : last ≤ a.slots.length) :
    ∃ a', std_fill a first last x = some a' ∧ a'.slots.length = a.slots.length ∧
      ∀ i, a'.slots[i]? = if first ≤ i ∧ i < last then some x else a.slots[i]? := by
  obtain ⟨a', e1, e2, e3⟩ := fill_loop_spec x (last - first) a first (by omega)
  refine ⟨a', by simp [std_fill, h1, e1], e2, ?_⟩
  intro i
  rw [e3 i]
  have : first + (last - first) = last := by omega
  rw [this]

theorem copy_loop_spec (after : α → α) : ∀ (n : Nat) (src : ArrayPtr α) (first : Nat)
    (dst : ArrayPtr α) (d_first : Nat),
    first + n ≤ src.slots.length → d_first + n ≤ dst.slots.length →
    ∃ src' dst', copy_loop after n src first dst d_first = some (src', dst') ∧
      dst'.slots.length = dst.slots.length ∧
      ∀ i, dst'.slots[i]? =
        if d_first ≤ i ∧ i < d_first + n then src.slots[first + (i - d_first)]?
        else dst.slots[i]? := by
  intro n
  induction n with
  | zero =>
    intro src first dst d_first _ _
    refine ⟨src, dst, rfl, rfl, ?_⟩
    intro i
    rw [if_neg (by omega)]
  | succ n ih =>
    intro src first dst d_first hs hd
    have hs1 : first < src.slots.length := by omega
    have hd1 : d_first < dst.slots.length := by omega
    obtain ⟨src', dst', h1, h2, h3⟩ :=
      ih ⟨src.slots.set first (after src.slots[first])⟩ (first + 1)
        ⟨dst.slots.set d_first src.slots[first]⟩ (d_first + 1)
        (by simp only [List.length_set]; omega) (by simp only [List.length_set]; omega)
    refine ⟨src', dst', ?_, ?_, ?_⟩
    · simp only [copy_loop, ArrayPtr.get_eq_some src first hs1,
        ArrayPtr.set_eq_some dst d_first _ hd1, ArrayPtr.set_eq_some src first _ hs1]
      exact h1
    · simpa using h2
    · intro i
      rw [h3 i]
      simp only [List.getElem?_set]
      by_cases hi : d_first = i
      · subst hi
        have : ¬ (d_first + 1 ≤ d_first ∧ d_first < d_first + 1 + n) := by omega
        have h5 : d_first ≤ d_first ∧ d_first < d_first + (n + 1) := by omega
        simp [this, hd1, List.getElem?_eq_getElem hs1]
      · by_cases h4 : d_first + 1 ≤ i ∧ i < d_first + 1 + n
        · have h5 : d_first ≤ i ∧ i < d_first + (n + 1) := by omega
          have h6 : first ≠ first + (i - d_first) := by omega
          have h7 : first + 1 + (i - (d_first + 1)) = first + (i - d_first) := by omega
          simp only [h4, h5, and_self, if_true, h7, if_neg h6]
        · have h5 : ¬ (d_first ≤ i ∧ i < d_first + (n + 1)) := by omega
          simp only [h4, h5, if_false, if_neg hi]

theorem std_copy_spec (after : α → α) (src : ArrayPtr α) (last : Nat) (dst : ArrayPtr α)
    (hs : last ≤ src.slots.length) (hd : last ≤ dst.slots.length) :
    ∃ src' dst', std_copy after src 0 last dst 0 = some (src', dst') ∧
      dst'.slots.length = dst.slots.length ∧
      ∀ i, dst'.slots[i]? = if i < last then src.slots[i]? else dst.slots[i]? := by
  obtain ⟨src', dst', e1, e2, e3⟩ := copy_loop_spec after last src 0 dst 0 (by omega) (by omega)
  refine ⟨src', dst', by simp [std_copy, e1], e2, ?_⟩
  intro i
  rw [e3 i]
  simp

end BufferLemmas

/-! ## The member functions, slot by slot -/

namespace SimpleVector

variable {α : Type}

theorem toList_length (v : SimpleVector α) (hs : v.size_ ≤ v.capacity_) (hb : v.Allocated) :
    v.toList.length = v.size_ := by
  unfold Allocated at hb
  simp only [toList, List.length_take]
  omega

theorem toList_getElem? (v : SimpleVector α) (i : Nat) :
    v.toList[i]? = if i < v.size_ then v.vector_.slots[i]? else none := by
  simp only [toList, List.getElem?_take]

theorem Resize_grow_spec [Inhabited α] [Movable α] (v : SimpleVector α) (n : Nat)
    (hs : v.size_ ≤ v.capacity_) (hb : v.Allocated) (hn : v.size_ < n) :
    ∃ v', v.Resize n = some v' ∧ v'.size_ = n ∧
      v'.capacity_ = (if n ≤ v.capacity_ then v.capacity_ else max (v.capacity_ * 2) n) ∧
      v'.Allocated ∧
      (∀ i, i < v.size_ → v'.vector_.slots[i]? = v.vector_.slots[i]?) ∧
      (∀ i, v.size_ ≤ i → i < n → v'.vector_.slots[i]? = some default) := by
  unfold Allocated at hb
  by_cases hc : n ≤ v.capacity_
  · obtain ⟨buf, e1, e2, e3⟩ := std_fill_spec v.vector_ v.size_ n default (by omega) (by omega)
    refine ⟨{ v with vector_ := buf, size_ := n }, ?_, rfl, ?_, ?_, ?_, ?_⟩
    · simp only [Resize, if_neg (by omega : ¬ n ≤ v.size_), if_pos hc, e1]
    · simp [hc]
    · simp only [Allocated, e2, hb]
    · intro i hi
      simp only [e3 i]
      rw [if_neg (by omega)]
    · intro i hi1 hi2
      simp only [e3 i]
      rw [if_pos ⟨hi1, hi2⟩]
  · have hgt : n > v.capacity_ := by omega
    obtain ⟨src', dst', e1, e2, e3⟩ := std_copy_spec Movable.moved_from v.vector_ v.size_
      (ArrayPtr.allocate (if v.capacity_ * 2 > n then v.capacity_ * 2 else n) : ArrayPtr α)
      (by omega) (by simp only [ArrayPtr.allocate, List.length_replicate]; split <;> omega)
    refine ⟨{ vector_ := dst', size_ := n,
              capacity_ := if v.capacity_ * 2 > n then v.capacity_ * 2 else n }, ?_, rfl, ?_, ?_, ?_, ?_⟩
    · simp only [Resize, if_neg (by omega : ¬ n ≤ v.size_), if_neg hc, if_pos hgt, e1]
    · simp only [if_neg hc]
      split <;> omega
    · simp only [Allocated, e2, ArrayPtr.allocate, List.length_replicate]
    · intro i hi
      simp only [e3 i]
      rw [if_pos hi]
    · intro i hi1 hi2
      simp only [e3 i]
      rw [if_neg (by omega)]
      simp only [ArrayPtr.allocate, List.getElem?_replicate]
      rw [if_pos (by split <;> omega)]

theorem PushBack_spec [Inhabited α] [Movable α] (v : SimpleVector α) (item : α)
    (hs : v.size_ ≤ v.capacity_) (hb : v.Allocated) :
    ∃ v', v.PushBack item = some v' ∧ v'.size_ = v.size_ + 1 ∧
      v'.capacity_ = (if v.size_ = v.capacity_ then max (v.capacity_ * 2) (v.size_ + 1)
                      else v.capacity_) ∧
      v'.Allocated ∧
      (∀ i, i < v.size_ → v'.vector_.slots[i]? = v.vector_.slots[i]?) ∧
      v'.vector_.slots[v.size_]? = some item := by
  by_cases hc : v.size_ = v.capacity_
  · obtain ⟨v1, e1, e2, e3, e4, e5, _⟩ := Resize_grow_spec v (v.size_ + 1) hs hb (by omega)
    unfold Allocated at e4
    have hlt : v.size_ < v1.vector_.slots.length := by
      rw [e4, e3]; split <;> omega
    refine ⟨{ v1 with vector_ := ⟨v1.vector_.slots.set v.size_ item⟩ }, ?_, e2, ?_, ?_, ?_, ?_⟩
    · simp only [PushBack, if_pos hc, e1, ArrayPtr.set_eq_some _ _ _ hlt]
    · simp only [e3, if_pos hc]
      rw [if_neg (by omega)]
    · simp only [Allocated, List.length_set, e4]
    · intro i hi
      simp only [List.getElem?_set]
      rw [if_neg (by omega)]
      exact e5 i hi
    · simp only [List.getElem?_set]
      simp [hlt]
  · unfold Allocated at hb
    have hlt : v.size_ < v.vector_.slots.length := by omega
    refine ⟨{ v with size_ := v.size_ + 1, vector_ := ⟨v.vector_.slots.set v.size_ item⟩ },
      ?_, rfl, ?_, ?_, ?_, ?_⟩
    · simp only [PushBack, if_neg hc, ArrayPtr.set_eq_some _ _ _ hlt]
    · simp only [if_neg hc]
    · simp only [Allocated, List.length_set, hb]
    · intro i hi
      simp only [List.getElem?_set]
      rw [if_neg (by omega)]
    · simp only [List.getElem?_set]
      simp [hlt]

theorem Reserve_spec [Inhabited α] (v : SimpleVector α) (n : Nat)
    (hs : v.size_ ≤ v.capacity_) (hb : v.Allocated) :
    ∃ v', v.Reserve n = some v' ∧ v'.size_ = v.size_ ∧
      v'.capacity_ = (if n > v.capacity_ then n else v.capacity_) ∧ v'.Allocated ∧
      (n ≤ v.capacity_ → v' = v) ∧
      (∀ i, i < v.size_ → v'.vector_.slots[i]? = v.vector_.slots[i]?) := by
  by_cases hn : n > v.capacity_
  · unfold Allocated at hb
    obtain ⟨src', dst', e1, e2, e3⟩ := std_copy_spec id v.vector_ v.size_
      (ArrayPtr.allocate n : ArrayPtr α) (by omega)
      (by simp only [ArrayPtr.allocate, List.length_replicate]; omega)
    refine ⟨{ v with vector_ := dst', capacity_ := n }, ?_, rfl, ?_, ?_, ?_, ?_⟩
    · simp only [Reserve, if_pos hn, e1]
    · simp only [if_pos hn]
    · simp only [Allocated, e2, ArrayPtr.allocate, List.length_replicate]
    · intro h; omega
    · intro i hi
      simp only [e3 i]
      rw [if_pos hi]
  · refine ⟨v, ?_, rfl, ?_, hb, fun _ => rfl, fun _ _ => rfl⟩
    · simp only [Reserve, if_neg hn]
    · simp only [if_neg hn]

theorem init_loop_spec : ∀ (init : List α) (temp : ArrayPtr α) (counter : Nat),
    counter + init.length ≤ temp.slots.length →
    ∃ temp', init_loop init temp counter = some temp' ∧
      temp'.slots.length = temp.slots.length ∧
      ∀ i, temp'.slots[i]? =
        if counter ≤ i ∧ i < counter + init.length then init[i - counter]?
        else temp.slots[i]? := by
  intro init
  induction init with
  | nil =>
    intro temp counter _
    refine ⟨temp, rfl, rfl, ?_⟩
    intro i
    rw [if_neg (by simp only [List.length_nil]; omega)]
  | cons x rest ih =>
    intro temp counter h
    simp only [List.length_cons] at h
    have hlt : counter < temp.slots.length := by omega
    obtain ⟨temp', e1, e2, e3⟩ := ih ⟨temp.slots.set counter x⟩ (counter + 1)
      (by simp only [List.length_set]; omega)
    refine ⟨temp', ?_, ?_, ?_⟩
    · simp only [init_loop, ArrayPtr.set_eq_some temp counter x hlt]
      exact e1
    · simpa using e2
    · intro i
      rw [e3 i]
      simp only [List.getElem?_set, List.length_cons]
      by_cases hi : counter = i
      · subst hi
        rw [if_neg (by omega), if_pos rfl, if_pos hlt, if_pos (by omega)]
        simp
      · by_cases h4 : counter + 1 ≤ i ∧ i < counter + 1 + rest.length
        · obtain ⟨k, hk⟩ : ∃ k, i - counter = k + 1 := ⟨i - counter - 1, by omega⟩
          have hk' : i - (counter + 1) = k := by omega
          rw [if_pos h4, if_pos (by omega), hk, hk', List.getElem?_cons_succ]
        · rw [if_neg h4, if_neg hi, if_neg (by omega)]

theorem ctor_init_spec [Inhabited α] (init : List α) :
    ∃ v : SimpleVector α, ctor_init init = some v ∧ v.size_ = init.length ∧
      v.capacity_ = init.length ∧ v.Allocated ∧ v.vector_.slots = init := by
  obtain ⟨buf, e1, e2, e3⟩ := init_loop_spec init (ArrayPtr.allocate init.length : ArrayPtr α) 0
    (by simp only [ArrayPtr.allocate, List.length_replicate]; omega)
  have hlen : buf.slots.length = init.length := by
    simp only [e2, ArrayPtr.allocate, List.length_replicate]
  refine ⟨{ vector_ := buf, size_ := init.length, capacity_ := init.length }, ?_, rfl, rfl,
    hlen, ?_⟩
  · simp only [ctor_init, e1]
  · apply List.ext_getElem?
    intro i
    show buf.slots[i]? = init[i]?
    rw [e3 i]
    by_cases hi : i < init.length
    · rw [if_pos (by omega)]
      simp
    · rw [if_neg (by omega)]
      simp only [ArrayPtr.allocate]
      rw [List.getElem?_eq_none (by simp only [List.length_replicate]; omega),
        List.getElem?_eq_none (by omega)]

theorem Resize_wf [Inhabited α] [Movable α] (v : SimpleVector α) (n : Nat)
    (h : v.WellFormed) : ∃ v', v.Resize n = some v' ∧ v'.WellFormed := by
  obtain ⟨hs, hb⟩ := h
  by_cases hn : n ≤ v.size_
  · refine ⟨{ v with size_ := n }, by simp only [Resize, if_pos hn], ?_, hb⟩
    show n ≤ v.capacity_
    omega
  · obtain ⟨v', e1, e2, e3, e4, _, _⟩ := Resize_grow_spec v n hs hb (by omega)
    refine ⟨v', e1, ?_, e4⟩
    rw [e2, e3]
    split <;> omega

theorem ctor_default_wf : (ctor_default : SimpleVector α).WellFormed :=
  ⟨Nat.le_refl 0, rfl⟩

theorem equal_loop_spec [DecidableEq α] : ∀ (n : Nat) (a : ArrayPtr α) (i : Nat)
    (b : ArrayPtr α) (j : Nat), i + n ≤ a.slots.length → j + n ≤ b.slots.length →
    equal_loop n a i b j
      = some (decide ((a.slots.drop i).take n = (b.slots.drop j).take n)) := by
  intro n
  induction n with
  | zero =>
    intro a i b j _ _
    simp [equal_loop]
  | succ n ih =>
    intro a i b j ha hb
    have hi : i < a.slots.length := by omega
    have hj : j < b.slots.length := by omega
    have da : a.slots.drop i = a.slots[i] :: a.slots.drop (i + 1) :=
      List.drop_eq_getElem_cons hi
    have db : b.slots.drop j = b.slots[j] :: b.slots.drop (j + 1) :=
      List.drop_eq_getElem_cons hj
    simp only [equal_loop, ArrayPtr.get_eq_some a i hi, ArrayPtr.get_eq_some b j hj, da, db,
      List.take_succ_cons, List.cons.injEq]
    by_cases hxy : a.slots[i] = b.slots[j]
    · rw [if_pos hxy, ih a (i + 1) b (j + 1) (by omega) (by omega)]
      simp [hxy]
    · rw [if_neg hxy]
      simp [hxy]

theorem operator_eq_spec [DecidableEq α] (lhs rhs : SimpleVector α)
    (hl : lhs.WellFormed) (hr : rhs.WellFormed) :
    operator_eq lhs rhs = some (decide (lhs.toList = rhs.toList)) := by
  have ll := toList_length lhs hl.1 hl.2
  have lr := toList_length rhs hr.1 hr.2
  obtain ⟨hls, hlb⟩ := hl
  obtain ⟨hrs, hrb⟩ := hr
  unfold Allocated at hlb hrb
  by_cases hsz : lhs.size_ = rhs.size_
  · simp only [operator_eq, GetSize, hsz, ne_eq, not_true_eq_false, if_false, std_equal,
      Nat.zero_le, and_self, if_true, Nat.sub_zero]
    rw [equal_loop_spec rhs.size_ lhs.vector_ 0 rhs.vector_ 0 (by omega) (by omega)]
    simp only [List.drop_zero, toList, hsz]
  · have hne : lhs.toList ≠ rhs.toList := by
      intro h
      rw [h] at ll
      omega
    simp [operator_eq, GetSize, hsz, hne]

theorem push_all_spec [Inhabited α] [Movable α] : ∀ (items : List α) (v : SimpleVector α),
    v.WellFormed → ∃ v', push_all items v = some v' ∧ v'.WellFormed ∧
      v'.size_ = v.size_ + items.length ∧ v'.toList = v.toList ++ items := by
  intro items
  induction items with
  | nil =>
    intro v h
    exact ⟨v, rfl, h, rfl, by simp⟩
  | cons x rest ih =>
    intro v h
    obtain ⟨v1, e1, e2, e3, e4, e5, e6⟩ := PushBack_spec v x h.1 h.2
    have hwf : v1.WellFormed := by
      refine ⟨?_, e4⟩
      rw [e2, e3]
      have := h.1
      split <;> omega
    obtain ⟨v', f1, f2, f3, f4⟩ := ih v1 hwf
    refine ⟨v', ?_, f2, ?_, ?_⟩
    · simp only [push_all, e1]
      exact f1
    · rw [f3, e2, List.length_cons]
      omega
    · rw [f4]
      have : v1.toList = v.toList ++ [x] := by
        apply List.ext_getElem?
        intro i
        rw [List.getElem?_append, toList_length v h.1 h.2, toList_getElem?, toList_getElem?, e2]
        by_cases h1 : i < v.size_
        · rw [if_pos h1, if_pos h1, if_pos (by omega)]
          exact e5 i h1
        · rw [if_neg h1]
          by_cases h2 : i = v.size_
          · subst h2
            rw [if_pos (by omega), e6]
            simp
          · rw [if_neg (by omega)]
            rw [List.getElem?_eq_none (by simp only [List.length_singleton]; omega)]
      rw [this, List.append_assoc]
      rfl

/-! ## Insert, Erase, PushBack, Resize -/

/-- C4: for every container and every `new_size > capacity_`, `Resize(new_size)`
sets the capacity to `max (2 * capacity_) new_size`; the new capacity is at
least `new_size`, and from capacity `0` it is `new_size`. -/
theorem Resize_capacity [Inhabited α] [Movable α] (v : SimpleVector α) (n : Nat)
    (hs : v.size_ ≤ v.capacity_) (hb : v.Allocated) (hn : v.capacity_ < n) :
    ∃ v', v.Resize n = some v' ∧ v'.capacity_ = max (2 * v.capacity_) n ∧
      n ≤ v'.capacity_ ∧ (v.capacity_ = 0 → v'.capacity_ = n) := by
  obtain ⟨v', e1, _, e3, _, _, _⟩ := Resize_grow_spec v n hs hb (by omega)
  rw [if_neg (by omega)] at e3
  refine ⟨v', e1, ?_, ?_, ?_⟩
  · rw [e3, Nat.mul_comm]
  · rw [e3]; exact Nat.le_max_right _ _
  · intro h0
    rw [e3, h0]
    simp

/-- Witness of C4 from capacity `0`, where doubling alone would not grow. -/
theorem Resize_capacity_witness :
    ((0 : Nat) ≤ 0 ∧ (⟨⟨[]⟩, 0, 0⟩ : SimpleVector Nat).Allocated ∧ (0 : Nat) < 3) ∧
    ∃ v', (⟨⟨[]⟩, 0, 0⟩ : SimpleVector Nat).Resize 3 = some v' ∧
      v'.capacity_ = max (2 * 0) 3 ∧ 3 ≤ v'.capacity_ ∧ ((0 : Nat) = 0 → v'.capacity_ = 3) :=
  ⟨by decide, Resize_capacity ⟨⟨[]⟩, 0, 0⟩ 3 (by decide) (by decide) (by decide)⟩

/-- C5: for every container, stale slots beyond `size_` included, and every
`new_size > size_`, `Resize(new_size)` gives the size `new_size`, every element
below the old size as it was and `Type()` at every index from the old size up to
`new_size`, in place (`new_size ≤ capacity_`) and on reallocation. -/
theorem Resize_grow_contents [Inhabited α] [Movable α] (v : SimpleVector α) (n : Nat)
    (hs : v.size_ ≤ v.capacity_) (hb : v.Allocated) (hn : v.size_ < n) :
    ∃ v', v.Resize n = some v' ∧ v'.size_ = n ∧
      (∀ i, i < v.size_ → (v'.operator_index i).2 = (v.operator_index i).2) ∧
      (∀ i, v.size_ ≤ i → i < n → (v'.operator_index i).2 = some default) ∧
      v'.toList = v.toList ++ List.replicate (n - v.size_) default := by
  obtain ⟨v', e1, e2, e3, e4, e5, e6⟩ := Resize_grow_spec v n hs hb hn
  refine ⟨v', e1, e2, e5, e6, ?_⟩
  apply List.ext_getElem?
  intro i
  rw [List.getElem?_append, toList_length v hs hb, toList_getElem?, toList_getElem?, e2]
  by_cases h1 : i < v.size_
  · rw [if_pos h1, if_pos h1, if_pos (by omega)]
    exact e5 i h1
  · rw [if_neg h1, List.getElem?_replicate]
    by_cases h2 : i < n
    · rw [if_pos h2, if_pos (by omega)]
      exact e6 i (by omega) h2
    · rw [if_neg h2, if_neg (by omega)]

/-- Witness of C5 in place, over stale slots left by an earlier shrink. -/
theorem Resize_grow_contents_witness :
    ((1 : Nat) ≤ 4 ∧ (⟨⟨[1, 7, 8, 9]⟩, 1, 4⟩ : SimpleVector Nat).Allocated ∧ (1 : Nat) < 3) ∧
    ∃ v', (⟨⟨[1, 7, 8, 9]⟩, 1, 4⟩ : SimpleVector Nat).Resize 3 = some v' ∧ v'.size_ = 3 ∧
      (∀ i, i < 1 → (v'.operator_index i).2
        = ((⟨⟨[1, 7, 8, 9]⟩, 1, 4⟩ : SimpleVector Nat).operator_index i).2) ∧
      (∀ i, 1 ≤ i → i < 3 → (v'.operator_index i).2 = some default) ∧
      v'.toList = (⟨⟨[1, 7, 8, 9]⟩, 1, 4⟩ : SimpleVector Nat).toList
        ++ List.replicate (3 - 1) default :=
  ⟨by decide, Resize_grow_contents ⟨⟨[1, 7, 8, 9]⟩, 1, 4⟩ 3 (by decide) (by decide) (by decide)⟩

/-! ## The invariant, checked access, Reserve, round trips -/

/-- C7: `At(index)` throws `out_of_range` exactly when `index ≥ size_`; when
`index < size_` it returns the element that `operator[](index)` returns; in
both cases the call leaves the size, the capacity and the elements as they
were. -/
theorem At_checked (v : SimpleVector α) (index : Nat) :
    ((v.At index).2 = Except.error Exception.out_of_range ↔ index ≥ v.size_) ∧
    (index < v.size_ → (v.At index).2 = Except.ok (v.operator_index index).2) ∧
    (v.At index).1 = v := by
  unfold At operator_index
  by_cases h : index ≥ v.size_
  · rw [if_pos h]
    exact ⟨⟨fun _ => h, fun _ => rfl⟩, fun h' => absurd h (by omega), rfl⟩
  · rw [if_neg h]
    exact ⟨⟨fun h' => absurd h' (by simp), fun h' => absurd h' h⟩, fun _ => rfl, rfl⟩

/-- C8: `Reserve(n)` leaves the size and every element in use as they were; if
`n > capacity_` the capacity becomes `n`, and if `n ≤ capacity_` the call
changes nothing. -/
theorem Reserve_contents [Inhabited α] (v : SimpleVector α) (n : Nat)
    (hs : v.size_ ≤ v.capacity_) (hb : v.Allocated) :
    ∃ v', v.Reserve n = some v' ∧ v'.size_ = v.size_ ∧
      (∀ i, i < v.size_ → (v'.operator_index i).2 = (v.operator_index i).2) ∧
      v'.toList = v.toList ∧
      (n > v.capacity_ → v'.capacity_ = n) ∧
      (n ≤ v.capacity_ → v'.capacity_ = v.capacity_ ∧ v' = v) := by
  obtain ⟨v', e1, e2, e3, _, e5, e6⟩ := Reserve_spec v n hs hb
  refine ⟨v', e1, e2, e6, ?_, ?_, ?_⟩
  · apply List.ext_getElem?
    intro i
    rw [toList_getElem?, toList_getElem?, e2]
    by_cases hi : i < v.size_
    · rw [if_pos hi, if_pos hi]
      exact e6 i hi
    · rw [if_neg hi, if_neg hi]
  · intro h
    rw [e3, if_pos h]
  · intro h
    rw [e5 h]
    exact ⟨rfl, rfl⟩

/-- Witness of C8 with a request above the capacity. -/
theorem Reserve_contents_witness :
    ((2 : Nat) ≤ 3 ∧ (⟨⟨[4, 5, 9]⟩, 2, 3⟩ : SimpleVector Nat).Allocated) ∧
    ∃ v', (⟨⟨[4, 5, 9]⟩, 2, 3⟩ : SimpleVector Nat).Reserve 5 = some v' ∧ v'.size_ = 2 ∧
      (∀ i, i < 2 → (v'.operator_index i).2
        = ((⟨⟨[4, 5, 9]⟩, 2, 3⟩ : SimpleVector Nat).operator_index i).2) ∧
      v'.toList = (⟨⟨[4, 5, 9]⟩, 2, 3⟩ : SimpleVector Nat).toList ∧
      (5 > 3 → v'.capacity_ = 5) ∧
      (5 ≤ 3 → v'.capacity_ = 3 ∧ v' = (⟨⟨[4, 5, 9]⟩, 2, 3⟩ : SimpleVector Nat)) :=
  ⟨by decide, Reserve_contents ⟨⟨[4, 5, 9]⟩, 2, 3⟩ 5 (by decide) (by decide)⟩

/-- C10: for every `N` and every sequence of `N` values, `N` calls of
`PushBack` on a default-constructed container (empty, capacity `0`) all return
and give `size_ == N` and `capacity_ ≥ N`. -/
theorem PushBack_N_times [Inhabited α] [Movable α] (N : Nat) (items : List α)
    (hN : items.length = N) :
    (ctor_default : SimpleVector α).size_ = 0 ∧ (ctor_default : SimpleVector α).capacity_ = 0 ∧
    ∃ v, push_all items ctor_default = some v ∧ v.size_ = N ∧ N ≤ v.capacity_ := by
  obtain ⟨v, e1, e2, e3, _⟩ := push_all_spec items (ctor_default : SimpleVector α)
    ctor_default_wf
  refine ⟨rfl, rfl, v, e1, ?_, ?_⟩
  · rw [e3, hN]
    show 0 + N = N
    omega
  · have h1 := e2.1
    rw [e3, hN] at h1
    have : (ctor_default : SimpleVector α).size_ = 0 := rfl
    omega

/-- Witness of C10 with five values. -/
theorem PushBack_N_times_witness :
    ([10, 20, 30, 40, 50] : List Nat).length = 5 ∧
    ((ctor_default : SimpleVector Nat).size_ = 0 ∧
     (ctor_default : SimpleVector Nat).capacity_ = 0 ∧
     ∃ v, push_all [10, 20, 30, 40, 50] ctor_default = some v ∧ v.size_ = 5 ∧
       5 ≤ v.capacity_) :=
  ⟨by decide, PushBack_N_times 5 [10, 20, 30, 40, 50] (by decide)⟩

end SimpleVector

/-! ## Growth by doubling -/

namespace SimpleVector

variable {α : Type}

theorem PushBack_transferred_eq (v : SimpleVector α) :
    v.PushBack_transferred = if v.size_ = v.capacity_ then v.size_ else 0 := by
  unfold PushBack_transferred Resize_transferred
  by_cases hc : v.size_ = v.capacity_
  · rw [if_pos hc, if_pos hc, if_neg (by omega), if_neg (by omega), if_pos (by omega)]
  · rw [if_neg hc, if_neg hc]

theorem push_all_doubling [Inhabited α] [Movable α] : ∀ (items : List α) (v : SimpleVector α),
    v.WellFormed → 1 ≤ v.size_ → v.capacity_ < 2 * v.size_ → (∃ k, v.capacity_ = 2 ^ k) →
    ∃ v' t, push_all items v = some v' ∧ push_all_transferred items v = some t ∧
      v'.size_ = v.size_ + items.length ∧ v'.size_ ≤ v'.capacity_ ∧
      v'.capacity_ < 2 * v'.size_ ∧ (∃ k, v'.capacity_ = 2 ^ k) ∧
      t + v.capacity_ = v'.capacity_ := by
  intro items
  induction items with
  | nil =>
    intro v h _ h2 h3
    exact ⟨v, 0, rfl, rfl, rfl, h.1, h2, h3, Nat.zero_add _⟩
  | cons x rest ih =>
    intro v h h1 h2 h3
    obtain ⟨v1, e1, e2, e3, e4, _, _⟩ := PushBack_spec v x h.1 h.2
    have hs := h.1
    have hcap1 : v1.capacity_ = if v.size_ = v.capacity_ then 2 * v.capacity_ else v.capacity_ := by
      rw [e3]
      split
      · omega
      · rfl
    have hwf : v1.WellFormed := by
      refine ⟨?_, e4⟩
      rw [e2, hcap1]
      split <;> omega
    have hpow : ∃ k, v1.capacity_ = 2 ^ k := by
      obtain ⟨k, hk⟩ := h3
      rw [hcap1]
      by_cases hc : v.size_ = v.capacity_
      · exact ⟨k + 1, by rw [if_pos hc, hk, Nat.pow_succ]; omega⟩
      · exact ⟨k, by rw [if_neg hc, hk]⟩
    obtain ⟨v', t, f1, f2, f3, f4, f5, f6, f7⟩ := ih v1 hwf (by omega)
      (by rw [e2, hcap1]; split <;> omega) hpow
    refine ⟨v', v.PushBack_transferred + t, ?_, ?_, ?_, f4, f5, f6, ?_⟩
    · simp only [push_all, e1]
      exact f1
    · simp only [push_all_transferred, e1, f2]
    · rw [f3, e2, List.length_cons]
      omega
    · rw [PushBack_transferred_eq, ← f7, hcap1]
      split <;> omega

theorem push_all_from_empty [Inhabited α] [Movable α] (x : α) (rest : List α) :
    ∃ v t, push_all (x :: rest) (ctor_default : SimpleVector α) = some v ∧
      push_all_transferred (x :: rest) (ctor_default : SimpleVector α) = some t ∧
      v.size_ = rest.length + 1 ∧ v.size_ ≤ v.capacity_ ∧ v.capacity_ < 2 * v.size_ ∧
      (∃ k, v.capacity_ = 2 ^ k) ∧ t + 1 = v.capacity_ := by
  obtain ⟨v1, e1, e2, e3, e4, _, _⟩ :=
    PushBack_spec (ctor_default : SimpleVector α) x (Nat.le_refl 0) rfl
  have hsz : v1.size_ = 1 := e2
  have hcap : v1.capacity_ = 1 := by
    rw [e3]
    rfl
  obtain ⟨v', t, f1, f2, f3, f4, f5, f6, f7⟩ := push_all_doubling rest v1
    ⟨by omega, e4⟩ (by omega) (by omega) ⟨0, by rw [hcap]; rfl⟩
  refine ⟨v', t, ?_, ?_, by omega, f4, f5, f6, by omega⟩
  · simp only [push_all, e1]
    exact f1
  · simp only [push_all_transferred, e1, f2]
    have : (ctor_default : SimpleVector α).PushBack_transferred = 0 := rfl
    rw [this, Nat.zero_add]

/-- C11: across the `PushBack` calls of any `N` values on a default-constructed
container, the elements transferred into new buffers by the reallocating calls
of `Resize` (the length of the copied range, summed over the calls) number at
most `2 * N`, and fewer than `2 * N` when `N ≥ 1`. -/
theorem PushBack_amortized [Inhabited α] [Movable α] (items : List α) :
    ∃ t, push_all_transferred items (ctor_default : SimpleVector α) = some t ∧
      t ≤ 2 * items.length ∧ (1 ≤ items.length → t < 2 * items.length) := by
  cases items with
  | nil => exact ⟨0, rfl, Nat.le_refl _, fun h => absurd h (by simp)⟩
  | cons x rest =>
    obtain ⟨v, t, _, e2, e3, _, e5, _, e7⟩ := push_all_from_empty x rest
    refine ⟨t, e2, ?_, fun _ => ?_⟩ <;>
    · rw [List.length_cons]
      omega

/-- C20: after the `PushBack` calls of `N ≥ 1` values on a default-constructed
container the capacity is the smallest power of two that is at least `N`
(a power of two, at least `N`, and not above any power of two that is at
least `N`), hence `N ≤ capacity_ < 2 * N`; for `N = 0` the capacity is `0`. -/
theorem PushBack_capacity_pow2 [Inhabited α] [Movable α] (items : List α) :
    ∃ v, push_all items (ctor_default : SimpleVector α) = some v ∧
      (items.length = 0 → v.capacity_ = 0) ∧
      (1 ≤ items.length →
        (∃ k, v.capacity_ = 2 ^ k) ∧ items.length ≤ v.capacity_ ∧
        (∀ j, items.length ≤ 2 ^ j → v.capacity_ ≤ 2 ^ j) ∧
        v.capacity_ < 2 * items.length) := by
  cases items with
  | nil => exact ⟨ctor_default, rfl, fun _ => rfl, fun h => absurd h (by simp)⟩
  | cons x rest =>
    obtain ⟨v, t, e1, _, e3, e4, e5, ⟨k, hk⟩, _⟩ := push_all_from_empty x rest
    refine ⟨v, e1, fun h => absurd h (by simp), fun _ => ⟨⟨k, hk⟩, ?_, ?_, ?_⟩⟩
    · rw [List.length_cons]
      omega
    · intro j hj
      rw [List.length_cons] at hj
      rw [hk]
      by_contra hlt
      have hjk : j < k := by
        by_contra hge
        exact hlt (Nat.pow_le_pow_right (by decide) (by omega))
      have h2 : 2 ^ (j + 1) ≤ 2 ^ k := Nat.pow_le_pow_right (by decide) hjk
      rw [Nat.pow_succ] at h2
      omega
    · rw [List.length_cons]
      omega

end SimpleVector

/-! ## Copy, move, literal lists, shrinking, room to append -/

section CopyLemmas

variable {α : Type}

end CopyLemmas

namespace SimpleVector

variable {α : Type}

/-- C13: move construction of `B` from `A`, and move assignment of `A` to
another container `B`, leave `A` with size `0` and capacity `0` and `B` with
`A`'s former size, capacity and element at every index below the size; move
assignment of a container to itself leaves it as it was. -/
theorem move_transfers (A B : SimpleVector α) :
    ((ctor_move A).2.size_ = 0 ∧ (ctor_move A).2.capacity_ = 0 ∧
      (ctor_move A).1.size_ = A.size_ ∧ (ctor_move A).1.capacity_ = A.capacity_ ∧
      ∀ i, i < A.size_ → ((ctor_move A).1.operator_index i).2 = (A.operator_index i).2) ∧
    (∃ A', (B.assign_move (some A)).2 = some A' ∧ A'.size_ = 0 ∧ A'.capacity_ = 0 ∧
      (B.assign_move (some A)).1.size_ = A.size_ ∧
      (B.assign_move (some A)).1.capacity_ = A.capacity_ ∧
      ∀ i, i < A.size_ →
        ((B.assign_move (some A)).1.operator_index i).2 = (A.operator_index i).2) ∧
    A.assign_move none = (A, none) :=
  ⟨⟨rfl, rfl, rfl, rfl, fun _ _ => rfl⟩, ⟨_, rfl, rfl, rfl, rfl, rfl, fun _ _ => rfl⟩, rfl⟩

/-- C14: for every list `L` of values, the container constructed from the
initializer list `L` and the container obtained from a default-constructed one
by `PushBack` of each element of `L` in order are equal for `operator==`,
whatever their capacities. -/
theorem ctor_init_eq_push_all [Inhabited α] [Movable α] [DecidableEq α] (L : List α) :
    ∃ a b, ctor_init L = some a ∧ push_all L (ctor_default : SimpleVector α) = some b ∧
      operator_eq a b = some true ∧ operator_eq b a = some true := by
  obtain ⟨a, e1, e2, e3, e4, e5⟩ := ctor_init_spec L
  obtain ⟨b, f1, f2, _, f4⟩ := push_all_spec L (ctor_default : SimpleVector α) ctor_default_wf
  have hwa : a.WellFormed := ⟨by omega, e4⟩
  have ha : a.toList = L := by
    unfold toList
    rw [e5, e2, List.take_length]
  have hb : b.toList = L := by
    rw [f4]
    rfl
  refine ⟨a, b, e1, f1, ?_, ?_⟩
  · rw [operator_eq_spec a b hwa f2, ha, hb]
    simp
  · rw [operator_eq_spec b a f2 hwa, ha, hb]
    simp

/-- C15: shrinking by `Resize` is a truncation: for `m ≤ size_`, `Resize(m)`
sets the size to `m` and leaves the capacity and the buffer, hence the first `m`
elements, as they were; and for `m ≤ n`, after `Resize(n)` followed by
`Resize(m)` the size is `m` and the element at every index below `m` is the
one found there right after `Resize(n)`. -/
theorem Resize_shrink [Inhabited α] [Movable α] (v : SimpleVector α) (n m : Nat) :
    (m ≤ v.size_ → ∃ v', v.Resize m = some v' ∧ v'.size_ = m ∧
      v'.capacity_ = v.capacity_ ∧ v'.vector_ = v.vector_ ∧
      ∀ i, i < m → (v'.operator_index i).2 = (v.operator_index i).2) ∧
    (v.size_ ≤ v.capacity_ → v.Allocated → m ≤ n →
      ∃ v1 v2, v.Resize n = some v1 ∧ v1.Resize m = some v2 ∧ v2.size_ = m ∧
        v2.capacity_ = v1.capacity_ ∧
        ∀ i, i < m → (v2.operator_index i).2 = (v1.operator_index i).2) := by
  constructor
  · intro hm
    exact ⟨{ v with size_ := m }, by simp only [Resize, if_pos hm], rfl, rfl, rfl,
      fun _ _ => rfl⟩
  · intro hs hb hmn
    obtain ⟨v1, e1, e2⟩ := Resize_wf v n ⟨hs, hb⟩
    have hsz : v1.size_ = n := by
      by_cases hn : n ≤ v.size_
      · simp only [Resize, if_pos hn, Option.some.injEq] at e1
        rw [← e1]
      · obtain ⟨w, g1, g2, _⟩ := Resize_grow_spec v n hs hb (by omega)
        rw [g1, Option.some.injEq] at e1
        rw [← e1, g2]
    have hm : m ≤ v1.size_ := by omega
    exact ⟨v1, { v1 with size_ := m }, e1, by simp only [Resize, if_pos hm], rfl, rfl,
      fun _ _ => rfl⟩

/-- A run of C15: grow from three to four, then shrink to two. -/
theorem Resize_shrink_witness :
    ∃ v1 v2, (⟨⟨[1, 2, 3]⟩, 3, 3⟩ : SimpleVector Nat).Resize 4 = some v1 ∧
      v1.Resize 2 = some v2 ∧ v2.size_ = 2 ∧ v2.capacity_ = v1.capacity_ ∧
      ∀ i, i < 2 → (v2.operator_index i).2 = (v1.operator_index i).2 :=
  (Resize_shrink ⟨⟨[1, 2, 3]⟩, 3, 3⟩ 4 2).2 (by decide) (by decide) (by decide)

theorem push_all_room [Inhabited α] [Movable α] : ∀ (items : List α) (v : SimpleVector α),
    v.Allocated → v.size_ + items.length ≤ v.capacity_ →
    ∃ v', push_all items v = some v' ∧ push_all_transferred items v = some 0 ∧
      v'.capacity_ = v.capacity_ ∧ v'.size_ = v.size_ + items.length ∧ v'.Allocated := by
  intro items
  induction items with
  | nil =>
    intro v hb _
    exact ⟨v, rfl, rfl, rfl, rfl, hb⟩
  | cons x rest ih =>
    intro v hb hroom
    rw [List.length_cons] at hroom
    have hne : v.size_ ≠ v.capacity_ := by omega
    obtain ⟨v1, e1, e2, e3, e4, _, _⟩ := PushBack_spec v x (by omega) hb
    rw [if_neg hne] at e3
    obtain ⟨v', f1, f2, f3, f4, f5⟩ := ih v1 e4 (by omega)
    refine ⟨v', ?_, ?_, by omega, ?_, f5⟩
    · simp only [push_all, e1]
      exact f1
    · simp only [push_all_transferred, e1, f2, PushBack_transferred_eq, if_neg hne]
    · rw [f4, e2, List.length_cons]
      omega

/-- C16: appending does not reallocate while there is room: for a container
and `k` values with `size_ + k ≤ capacity_`, the `k` calls of `PushBack` leave
the capacity as it was and transfer no element into a new buffer; `Reserve(c)`
on a default-constructed container gives size `0` and capacity `c`, and any
`k ≤ c` appends after it leave the capacity at `c`. -/
theorem PushBack_keeps_capacity [Inhabited α] [Movable α] (v : SimpleVector α)
    (items : List α) (hb : v.Allocated) (hroom : v.size_ + items.length ≤ v.capacity_) :
    (∃ v', push_all items v = some v' ∧ v'.capacity_ = v.capacity_ ∧
      v'.size_ = v.size_ + items.length ∧ push_all_transferred items v = some 0) ∧
    ∀ c, ∃ r, (ctor_default : SimpleVector α).Reserve c = some r ∧ r.size_ = 0 ∧
      r.capacity_ = c ∧
      ∀ more : List α, more.length ≤ c →
        ∃ r', push_all more r = some r' ∧ r'.capacity_ = c ∧ r'.size_ = more.length := by
  constructor
  · obtain ⟨v', e1, e2, e3, e4, _⟩ := push_all_room items v hb hroom
    exact ⟨v', e1, e3, e4, e2⟩
  · intro c
    obtain ⟨r, e1, e2, e3, e4, _, _⟩ :=
      Reserve_spec (ctor_default : SimpleVector α) c (Nat.le_refl 0) rfl
    have hsz : r.size_ = 0 := e2
    have hcap : r.capacity_ = c := by
      rw [e3]
      show (if c > 0 then c else 0) = c
      split <;> omega
    refine ⟨r, e1, hsz, hcap, ?_⟩
    intro more hm
    obtain ⟨r', f1, _, f3, f4, _⟩ := push_all_room more r e4 (by omega)
    exact ⟨r', f1, by omega, by omega⟩

/-- Witness of C16, the scenario of the spec: capacity ten, five appends. -/
theorem PushBack_keeps_capacity_witness :
    ((⟨⟨List.replicate 10 0⟩, 0, 10⟩ : SimpleVector Nat).Allocated ∧
      0 + [1, 2, 3, 4, 5].length ≤ 10) ∧
    ((∃ v', push_all [1, 2, 3, 4, 5] (⟨⟨List.replicate 10 0⟩, 0, 10⟩ : SimpleVector Nat)
        = some v' ∧ v'.capacity_ = 10 ∧ v'.size_ = 0 + [1, 2, 3, 4, 5].length ∧
      push_all_transferred [1, 2, 3, 4, 5]
        (⟨⟨List.replicate 10 0⟩, 0, 10⟩ : SimpleVector Nat) = some 0) ∧
    ∀ c, ∃ r, (ctor_default : SimpleVector Nat).Reserve c = some r ∧ r.size_ = 0 ∧
      r.capacity_ = c ∧
      ∀ more : List Nat, more.length ≤ c →
        ∃ r', push_all more r = some r' ∧ r'.capacity_ = c ∧ r'.size_ = more.length) :=
  ⟨by decide, PushBack_keeps_capacity ⟨⟨List.replicate 10 0⟩, 0, 10⟩ [1, 2, 3, 4, 5]
    (by decide) (by decide)⟩

/-- C17: `PopBack` gives the size `size_ - 1` when the size is positive and
leaves it at `0` on an empty container, with nothing subtracted below zero; the
capacity and the buffer, hence every element below the new size, stay as they
were; the call is a total function, it signals nothing. -/
theorem PopBack_size (v : SimpleVector α) :
    (0 < v.size_ → v.PopBack.size_ + 1 = v.size_) ∧
    (v.size_ = 0 → v.PopBack.size_ = 0) ∧
    v.PopBack.capacity_ = v.capacity_ ∧ v.PopBack.vector_ = v.vector_ ∧
    (∀ i, i < v.PopBack.size_ → (v.PopBack.operator_index i).2 = (v.operator_index i).2) := by
  refine ⟨?_, ?_, rfl, rfl, fun _ _ => rfl⟩
  · intro h
    show v.size_ - (if v.size_ > 0 then 1 else 0) + 1 = v.size_
    rw [if_pos h]
    omega
  · intro h
    show v.size_ - (if v.size_ > 0 then 1 else 0) = 0
    omega

end SimpleVector

/-! ## The move overloads, and accesses inside the allocation -/

namespace SimpleVector

variable {α : Type}

theorem PushBack_move_eq [Inhabited α] [Movable α] (v : SimpleVector α) (x : α) :
    v.PushBack_move x = (v.PushBack x).map fun v' => (v', Movable.moved_from x) := by
  unfold PushBack_move PushBack
  cases (if v.size_ = v.capacity_ then v.Resize (v.size_ + 1)
         else some { v with size_ := v.size_ + 1 }) with
  | none => rfl
  | some v1 =>
    cases h : v1.vector_.set v.size_ x with
    | none => simp only [h, Option.map_none']
    | some buf => simp only [h, Option.map_some']

theorem Insert_move_empty_spec [Inhabited α] [Movable α] (v : SimpleVector α) (x : α)
    (h0 : v.size_ = 0) (hb : v.Allocated) :
    ∃ v', v.Insert_move 0 x
        = some (v', 0, Movable.moved_from (Movable.moved_from x)) ∧
      v'.size_ = 1 ∧ (v'.operator_index 0).2 = some (Movable.moved_from x) := by
  obtain ⟨v1, e1, e2, e3, e4, _, _⟩ := PushBack_spec v x (by omega) hb
  unfold Allocated at e4 hb
  have hsz : v1.size_ = 1 := by omega
  have hlt : 0 < v1.vector_.slots.length := by
    rw [e4, e3]; split <;> omega
  refine ⟨{ v1 with vector_ := ⟨v1.vector_.slots.set 0 (Movable.moved_from x)⟩ }, ?_, hsz, ?_⟩
  · simp only [Insert_move, if_pos h0, PushBack_move_eq, e1, Option.map_some', hsz,
      std_copy_backward, Nat.sub_self, Nat.le_refl, if_true, copy_backward_loop,
      ArrayPtr.set_eq_some _ _ _ hlt]
  · simp only [operator_index, ArrayPtr.get, List.getElem?_set]
    simp [hlt]

/-- C18 at a failing input: the move overload of `Insert` on an empty container
of `UniquePtr` elements, given a value that holds `7`.  The call returns
position `0` and size `1`, but the element at index `0` holds nothing: the
value went into the slot inside `PushBack(std::move(value))`, and the later
`vector_[index] = std::move(value)` assigned the moved-from object over it.
The append alone keeps the value. -/
theorem Insert_move_empty_loses_value :
    Insert_move (ctor_default : SimpleVector UniquePtr) 0 ⟨some 7⟩
      = some (⟨⟨[⟨none⟩]⟩, 1, 1⟩, 0, ⟨none⟩) ∧
    ((⟨⟨[⟨none⟩]⟩, 1, 1⟩ : SimpleVector UniquePtr).operator_index 0).2
      ≠ some (⟨some 7⟩ : UniquePtr) ∧
    PushBack_move (ctor_default : SimpleVector UniquePtr) ⟨some 7⟩
      = some (⟨⟨[⟨some 7⟩]⟩, 1, 1⟩, ⟨none⟩) := by
  decide

end SimpleVector
